import Mathlib

/-!
Verification of the `document-store` repository (DocumentStore layered on a
transactional ordered key-value store).

The definitions below are a shallow embedding of the JavaScript source:

* `src/unnamed/part_009` — the `DocumentStore` class (key construction,
  `updateIndex`/`updateIndexes`, `get`/`put`/`delete`, `getMany`,
  `find`/`_findWithIndex`, `forEach`, `initializeDocumentStore`,
  `migrateDocumentStore`, `removeCollectionsMarkedAsRemoved`,
  `getStatistics`, `getCollection`/`normalizeCollection`).
* `src/src/collection.js` — `Collection.findIndexForQueryAndOrder`.

Modelling conventions:

* JavaScript `undefined` is `Option.none`; JSON `null` is the scalar
  `JVal.jnull` (lodash `isEqual` treats `undefined` entries as equal, which
  matches equality on `Option`; the loose test `val != null` excludes both
  `undefined` and `null`).
* Documents are kept in the flattened form produced by the external
  `expand-flatten` library: an association list from dotted path to scalar.
  `flatten(undefined)` is the empty object, i.e. the empty list.
* Composite KVS keys are tuples, modelled as `List (Option JVal)`; the name
  segments of a key are `some (JVal.jstr _)`.
* The external KVS (package `key-value-store`) keeps a map from composite
  keys to values; it is modelled as a function `Key → Option Val`.
-/

namespace DS

/-- JSON scalar values (leaves of a flattened document and key segments). -/
inductive JVal where
  | jnull
  | jbool (b : Bool)
  | jnum (n : Int)
  | jstr (s : String)
deriving DecidableEq

/-- A possibly-undefined JavaScript value: `none` is `undefined`. -/
abbrev OJV := Option JVal

/-- A flattened document: dotted path ↦ scalar, as produced by `flatten`. -/
abbrev Doc := List (String × JVal)

/-- JavaScript property read `obj[key]` on a flattened document
(`undefined`, i.e. `none`, when the path is absent). -/
def dlookup : Doc → String → OJV
  | [], _ => none
  | (k, v) :: rest, key => if k = key then some v else dlookup rest key

/-- One index property, from `normalizeIndexProperties`
(`src/src/collection.js` lines 86-100): either a simple property
(`{ key, value: true }`, reading the dotted path `key` from the flattened
document) or a computed property (`{ key, value: fn }`). -/
inductive IndexPropVal where
  | simple
  | computed (f : Doc → OJV)

structure IndexProperty where
  key : String
  value : IndexPropVal

/-- An index of a collection: ordered property list plus an optional
projection (list of dotted paths). `keys` and `name` are derived. -/
structure Index where
  properties : List IndexProperty
  projection : Option (List String)

/-- `index.keys` (the derived ordered list of property keys). -/
def Index.keys (i : Index) : List String :=
  i.properties.map (fun p => p.key)

structure Collection where
  name : String
  indexes : List Index

/-- `makeIndexName(keys)` = `keys.join('+')` (part_009 line 424). -/
def makeIndexName (keys : List String) : String :=
  String.intercalate "+" keys

/-- `makeIndexCollectionName(collectionName, indexName)` (part_009 line 436). -/
def makeIndexCollectionName (collectionName indexName : String) : String :=
  collectionName ++ ":" ++ indexName

/-- A composite KVS key (tuple of scalars; `none` can only appear if the
JavaScript code pushes `undefined` into a key). -/
abbrev Key := List OJV

/-- Values stored in the KVS: a document, an index entry payload (the
projection object, or `undefined` stored when there is no projection), or
the schema record (its collection list; other record fields are not needed
by the claims below). -/
inductive Val where
  | doc (d : Doc)
  | proj (p : Option (List (String × JVal)))
  | record (collections : List (String × Bool × List (List String)))
deriving DecidableEq

/-- The KVS map (point-lookup view of the external store). -/
abbrev Store := Key → Option Val

def kvget (st : Store) (k : Key) : Option Val := st k

def kvput (st : Store) (k : Key) (v : Val) : Store :=
  fun k' => if k' = k then some v else st k'

def kvdel (st : Store) (k : Key) : Store :=
  fun k' => if k' = k then none else st k'

/-- `makeDocumentKey(collection, key)` = `[this.name, collection.name, key]`
(part_009 line 686). -/
def makeDocumentKey (n collName : String) (key : OJV) : Key :=
  [some (JVal.jstr n), some (JVal.jstr collName), key]

/-- `makeIndexKey(collection, index, values, key)` (part_009 lines 428-434):
`[this.name, collectionName:indexName, ...values, key]`. -/
def makeIndexKey (n : String) (c : Collection) (index : Index)
    (values : List OJV) (key : OJV) : Key :=
  [some (JVal.jstr n),
   some (JVal.jstr (makeIndexCollectionName c.name (makeIndexName index.keys)))]
  ++ values ++ [key]

/-- The two name segments every key of an index's key range starts with. -/
def indexRangeStart (n : String) (c : Collection) (index : Index) : Key :=
  [some (JVal.jstr n),
   some (JVal.jstr (makeIndexCollectionName c.name (makeIndexName index.keys)))]

/-- Extraction of one index property value (part_009 lines 384-395):
`oldDoc && flattenedOldDoc[property.key]` for a simple property,
`oldDoc && property.value(oldDoc)` for a computed one. An absent document
yields `undefined`. -/
def extractProperty (p : IndexProperty) (doc : Option Doc) : OJV :=
  match doc with
  | none => none
  | some d =>
    match p.value with
    | IndexPropVal.simple => dlookup d p.key
    | IndexPropVal.computed f => f d

/-- The value list of an index for a (possibly absent) document. -/
def extractValues (index : Index) (doc : Option Doc) : List OJV :=
  index.properties.map (fun p => extractProperty p doc)

/-- `valuesOf(I, d)` for a present document. -/
def valuesOf (index : Index) (d : Doc) : List OJV :=
  extractValues index (some d)

/-- The projection payload built by `updateIndex` (part_009 lines 396-411):
for each projected path take `flattenedDoc[k]`, keep it only when
`val != null` (loose, so both `undefined` and `null` are skipped); the
whole projection stays `undefined` when no key was kept. -/
def projEntries (keys : List String) (flat : Doc) : List (String × JVal) :=
  keys.filterMap (fun k =>
    match dlookup flat k with
    | some v => if v = JVal.jnull then none else some (k, v)
    | none => none)

def computeProjection (projection : Option (List String)) (doc : Option Doc) :
    Option (List (String × JVal)) :=
  match projection with
  | none => none
  | some ks =>
    let entries := projEntries ks (doc.getD [])
    if entries = [] then none else some entries

/-- A KVS mutation. -/
inductive KVOp where
  | del (k : Key)
  | put (k : Key) (v : Val)
deriving DecidableEq

def KVOp.key : KVOp → Key
  | KVOp.del k => k
  | KVOp.put k _ => k

def applyOp (st : Store) : KVOp → Store
  | KVOp.del k => kvdel st k
  | KVOp.put k v => kvput st k v

def applyOps (st : Store) (ops : List KVOp) : Store :=
  ops.foldl applyOp st

/-- The mutations performed by `updateIndex(collection, key, oldDoc, newDoc,
index)` (part_009 lines 379-422): delete the old entry iff the value lists
differ and the old values contain no `undefined`; write the new entry (with
the new projection as value) iff the value lists or the projections differ
and the new values contain no `undefined`. -/
def updateIndexOps (n : String) (c : Collection) (key : OJV)
    (oldDoc newDoc : Option Doc) (index : Index) : List KVOp :=
  let oldValues := extractValues index oldDoc
  let newValues := extractValues index newDoc
  let oldProjection := computeProjection index.projection oldDoc
  let newProjection := computeProjection index.projection newDoc
  (if oldValues ≠ newValues ∧ ¬ none ∈ oldValues then
    [KVOp.del (makeIndexKey n c index oldValues key)]
  else []) ++
  (if (oldValues ≠ newValues ∨ oldProjection ≠ newProjection) ∧ ¬ none ∈ newValues then
    [KVOp.put (makeIndexKey n c index newValues key) (Val.proj newProjection)]
  else [])

def updateIndexStore (n : String) (c : Collection) (st : Store) (key : OJV)
    (oldDoc newDoc : Option Doc) (index : Index) : Store :=
  applyOps st (updateIndexOps n c key oldDoc newDoc index)

/-- `updateIndexes` (part_009 lines 372-377): update every index in order. -/
def updateIndexes (n : String) (c : Collection) (st : Store) (key : OJV)
    (oldDoc newDoc : Option Doc) : Store :=
  c.indexes.foldl (fun st index => updateIndexStore n c st key oldDoc newDoc index) st

/-- The document currently stored at a key (if that key holds a document). -/
def getDocAt (st : Store) (k : Key) : Option Doc :=
  match st k with
  | some (Val.doc d) => some d
  | _ => none

structure PutOptions where
  createIfMissing : Bool
  errorIfExists : Bool
deriving DecidableEq

/-- `put(collection, key, doc, options)` (part_009 lines 471-486), run inside
one KVS transaction: read the old document, write the new one (honouring
`createIfMissing`/`errorIfExists`), then update every index. A failure
aborts the transaction, so the store is unchanged on error. -/
def putOp (n : String) (c : Collection) (st : Store) (key : OJV) (doc : Doc)
    (opts : PutOptions) : Except String Store :=
  let docKey := makeDocumentKey n c.name key
  let oldDoc := getDocAt st docKey
  if opts.errorIfExists ∧ oldDoc.isSome then
    Except.error "document already exists"
  else if ¬ opts.createIfMissing ∧ oldDoc.isNone then
    Except.error "document is missing"
  else
    let st1 := kvput st docKey (Val.doc doc)
    Except.ok (updateIndexes n c st1 key oldDoc (some doc))

/-- `delete(collection, key, options)` (part_009 lines 490-510): read the old
document (erroring when missing and `errorIfMissing`), and when present
delete it and update every index with `newDoc = undefined`. Returns the
`hasBeenDeleted` boolean. -/
def deleteOp (n : String) (c : Collection) (st : Store) (key : OJV)
    (errorIfMissing : Bool) : Except String (Store × Bool) :=
  let docKey := makeDocumentKey n c.name key
  match getDocAt st docKey with
  | none =>
    if errorIfMissing then Except.error "document is missing"
    else Except.ok (st, false)
  | some oldDoc =>
    let st1 := kvdel st docKey
    Except.ok (updateIndexes n c st1 key (some oldDoc) none, true)

/-- `get(collection, key, options)` (part_009 lines 457-464): a point lookup
of the document key. -/
def getOp (n : String) (c : Collection) (st : Store) (key : OJV)
    (errorIfMissing : Bool) : Except String (Option Val) :=
  match kvget st (makeDocumentKey n c.name key) with
  | some v => Except.ok (some v)
  | none =>
    if errorIfMissing then Except.error "document is missing"
    else Except.ok none

/-- The store right after `initializeDocumentStore` created it
(`createDocumentStoreIfDoesNotExist`, part_009 lines 73-93): the only pair
is the schema record at `[storeName]`. -/
def initStore (n : String) : Store :=
  fun k => if k = [some (JVal.jstr n)] then some (Val.record []) else none

/-- Stores reachable from a fresh document store by successful `put` and
`delete` operations on collection `c`. -/
inductive Reach (n : String) (c : Collection) : Store → Prop where
  | init : Reach n c (initStore n)
  | put {st st' : Store} {key : OJV} {doc : Doc} {opts : PutOptions} :
      Reach n c st → putOp n c st key doc opts = Except.ok st' → Reach n c st'
  | del {st st' : Store} {key : OJV} {b em : Bool} :
      Reach n c st → deleteOp n c st key em = Except.ok (st', b) → Reach n c st'

/-- The index integrity invariant of the specification (§8, invariant 1):
for every index of the collection, (1) every KVS pair in the index's key
range is the entry of some currently stored document with fully defined
values, and (2) a stored document has an entry at
`makeIndexKey(c, I, valuesOf(I, d), key)` iff none of its values is
`undefined`. -/
def IndexIntegrity (n : String) (c : Collection) (st : Store) : Prop :=
  ∀ index ∈ c.indexes,
    (∀ tail : Key, st (indexRangeStart n c index ++ tail) ≠ none →
      ∃ key d, getDocAt st (makeDocumentKey n c.name key) = some d ∧
        ¬ none ∈ valuesOf index d ∧
        indexRangeStart n c index ++ tail = makeIndexKey n c index (valuesOf index d) key) ∧
    (∀ key d, getDocAt st (makeDocumentKey n c.name key) = some d →
      (¬ none ∈ valuesOf index d ↔
        st (makeIndexKey n c index (valuesOf index d) key) ≠ none))


/-! Witness fixtures: a tiny concrete store used to instantiate the theorems
with hypotheses. -/

def c4Index : Index :=
  { properties := [{ key := "a", value := IndexPropVal.simple }], projection := none }

def c4Coll : Collection := { name := "People", indexes := [c4Index] }

def c4Doc : Doc := [("a", JVal.jnum 1)]

def c4Key : OJV := some (JVal.jstr "k")

def c4StorePut : Store :=
  match putOp "S" c4Coll (initStore "S") c4Key c4Doc ⟨true, false⟩ with
  | Except.ok st => st
  | Except.error _ => initStore "S"

def c4StoreDel : Store :=
  match deleteOp "S" c4Coll c4StorePut c4Key true with
  | Except.ok (st, _) => st
  | Except.error _ => initStore "S"

/-! Fixtures for the index-integrity counterexample: an index whose
`properties` list is empty (constructible through the public API, e.g.
`indexes: [[]]`) but which carries a projection. -/

def c1Index : Index := { properties := [], projection := some ["a"] }

def c1Coll : Collection := { name := "C", indexes := [c1Index] }

def c1Key : OJV := some (JVal.jstr "k")

def c1Doc : Doc := [("a", JVal.jnum 1)]

def c1StorePut : Store :=
  match putOp "S" c1Coll (initStore "S") c1Key c1Doc ⟨true, false⟩ with
  | Except.ok st => st
  | Except.error _ => initStore "S"

def c1StoreDel : Store :=
  match deleteOp "S" c1Coll c1StorePut c1Key true with
  | Except.ok (st, _) => st
  | Except.error _ => initStore "S"

/-- lodash `difference(as, bs)`: the elements of `as` that do not occur in
`bs` (with `difference(as, undefined) = as`, modelled by passing `[]`). -/
def jsDifference (as bs : List String) : List String :=
  as.filter (fun a => ! bs.contains a)

/-- `Collection.findIndexForQueryAndOrder(query, order)`
(`src/src/collection.js` lines 40-63): when the query is non-empty, keep the
indexes whose first `|query|` property keys contain every query key; among
those return the first whose remaining property keys equal `order` exactly.
`none` models the thrown `Index not found` error. Only the keys of `query`
matter, so the model takes the key list `Object.keys(query)`. -/
def findIndexForQueryAndOrder (c : Collection) (queryKeys order : List String) :
    Option Index :=
  let indexes :=
    if queryKeys.length ≠ 0 then
      c.indexes.filter (fun idx =>
        decide ((jsDifference queryKeys
          ((idx.properties.map (fun p => p.key)).take queryKeys.length)).length = 0))
    else c.indexes
  indexes.find? (fun idx =>
    decide ((idx.properties.map (fun p => p.key)).drop queryKeys.length = order))

/-- The index selection rule as the specification words it: the first index
(in declaration order) whose first `|query|` property keys equal the set of
query keys and whose remaining property keys equal `order` exactly. -/
def specIndexForQueryAndOrder (c : Collection) (queryKeys order : List String) :
    Option Index :=
  c.indexes.find? (fun idx =>
    decide (((idx.properties.map (fun p => p.key)).take queryKeys.length).toFinset
        = queryKeys.toFinset)
    && decide ((idx.properties.map (fun p => p.key)).drop queryKeys.length = order))

/-! Fixtures for the C3 witness: two compound indexes. -/

def c3Coll : Collection :=
  { name := "People",
    indexes :=
      [{ properties := [{ key := "country", value := IndexPropVal.simple },
                        { key := "city", value := IndexPropVal.simple }],
         projection := none },
       { properties := [{ key := "lastName", value := IndexPropVal.simple },
                        { key := "firstName", value := IndexPropVal.simple }],
         projection := none }] }

/-- The normalised `properties` option (`normalizeOptions`, part_009 lines
711-725): `'*'` or an array of property paths. -/
inductive PropsOption where
  | star
  | props (l : List String)

/-- A result item of `find`/`getMany`: `{ key: last(item.key), document? }`. -/
structure FItem where
  key : Option OJV
  document : Option Val
deriving DecidableEq

/-- `getMany(collection, keys, { errorIfMissing: false })` (part_009 lines
512-532) as used for the second pass of `_findWithIndex`: a vector point
lookup that drops missing keys, keeps input order, and (since the default
`properties` is `'*'`) returns the stored values. -/
def getManyModel (n collName : String) (st : Store) (keys : List OJV) : List FItem :=
  let items := keys.filterMap (fun k =>
    (st (makeDocumentKey n collName k)).map (fun v => (makeDocumentKey n collName k, v)))
  items.map (fun item => { key := item.1.getLast?, document := some item.2 })

/-- The projection decision of `_findWithIndex` (part_009 lines 570-581):
`(fetchDoc, useProjection, loggedInsufficient)`. `difference` against an
absent projection behaves as against `[]`. -/
def projectionDecision (properties : PropsOption) (index : Index) :
    Bool × Bool × Bool :=
  match properties with
  | PropsOption.star => (true, false, false)
  | PropsOption.props l =>
    if l.length ≠ 0 then
      if (jsDifference l (index.projection.getD [])).length = 0 then
        (false, true, false)
      else (true, false, true)
    else (false, false, false)

/-- `_findWithIndex` (part_009 lines 567-605) after the index was chosen:
`entries` are the `(key, value)` pairs returned by the KVS range scan over
the index prefix; when `fetchDoc` is set the documents are fetched in a
second pass through `getMany`. -/
def findWithIndexModel (n collName : String) (index : Index)
    (properties : PropsOption) (entries : List (Key × Val)) (st : Store) :
    List FItem :=
  let d := projectionDecision properties index
  let fetchDoc := d.1
  let useProjection := d.2.1
  let transformed := entries.map (fun e =>
    { key := e.1.getLast?, document := if useProjection then some e.2 else none })
  if fetchDoc then
    getManyModel n collName st (transformed.map (fun it => it.key.getD none))
  else transformed

/-! Fixtures for the C5 witness. -/

def c5Index : Index :=
  { properties := [{ key := "country", value := IndexPropVal.simple }],
    projection := some ["firstName"] }

def c5Entries : List (Key × Val) :=
  [([some (JVal.jstr "S"), some (JVal.jstr "People:country"), some (JVal.jstr "USA"),
     some (JVal.jstr "k1")], Val.proj (some [("firstName", JVal.jstr "Ann")]))]

/-! The KVS orders composite keys element-wise with a total order across
scalar types (spec section 6). The embedding fixes one such order; the only
facts the theorems use are that it is a linear order and that list keys are
compared lexicographically (a strict prefix sorts first). -/

def ojvEmbed : OJV → ℕ ×ₗ (Bool ×ₗ (ℤ ×ₗ String))
  | none => toLex (0, toLex (false, toLex (0, "")))
  | some JVal.jnull => toLex (1, toLex (false, toLex (0, "")))
  | some (JVal.jbool b) => toLex (2, toLex (b, toLex (0, "")))
  | some (JVal.jnum m) => toLex (3, toLex (false, toLex (m, "")))
  | some (JVal.jstr s) => toLex (4, toLex (false, toLex (0, s)))

theorem ojvEmbed_injective : Function.Injective ojvEmbed := by
  intro a b h
  cases a with
  | none =>
    cases b with
    | none => rfl
    | some v => cases v <;> simp [ojvEmbed, toLex, Prod.ext_iff] at h
  | some v =>
    cases b with
    | none => cases v <;> simp [ojvEmbed, toLex, Prod.ext_iff] at h
    | some w => cases v <;> cases w <;> simp_all [ojvEmbed, toLex, Prod.ext_iff]

instance : LinearOrder OJV := LinearOrder.lift' ojvEmbed ojvEmbed_injective

/-- One item visited by a batched `forEach` over an indexed `find`: the
index entry key after the scan prefix (`tail` = remaining order values then
the document key), the document key, and the document fetched by the second
pass. -/
structure QItem where
  tail : List OJV
  key : OJV
  doc : Doc
deriving DecidableEq

/-- `makeOrderKey(key, doc, order)` (part_009 lines 690-694):
`order.map(k => doc[k])` followed by the key. -/
def makeOrderKeyM (key : OJV) (doc : Doc) (order : List String) : List OJV :=
  (order.map (fun k => dlookup doc k)) ++ [key]

/-- One `find` call as issued by `forEach`: the KVS scans the (sorted) index
entries after the cursor and applies `limit` (part_009 lines 639-640; the
KVS `find` contract of spec section 6). -/
def findBatch (all : List QItem) (startAfter : Option (List OJV)) (limit : Nat) :
    List QItem :=
  (match startAfter with
   | none => all
   | some a => all.filter (fun it => decide (a < it.tail))).take limit

/-- `forEach(collection, options, fn)` (part_009 lines 633-650): repeatedly
`find` with `limit = batchSize`, visit each returned item, then advance by
`startAfter := makeOrderKey(lastItem.key, lastItem.document, order)` and
clear `start`; stop on an empty batch. Returns the visited items in order;
the fuel bounds the number of rounds. -/
def forEachModel (all : List QItem) (order : List String) (batchSize : Nat) :
    Nat → Option (List OJV) → List QItem
  | 0, _ => []
  | Nat.succ fuel, startAfter =>
    let items := findBatch all startAfter batchSize
    if items.isEmpty then []
    else
      items ++
        (match items.getLast? with
         | some lastIt =>
           forEachModel all order batchSize fuel
             (some (makeOrderKeyM lastIt.key lastIt.doc order))
         | none => [])

/-! Fixtures for C6: the counterexample uses a computed index named `x`
whose value is the document property `y`, while the documents also carry an
unrelated property named `x`; `forEach` advances with `doc['x']` and skips
the second document. The witness uses a simple top-level index `a`. -/

def c6Fn : Doc → OJV := fun d => dlookup d "y"

def c6Coll : Collection :=
  { name := "People",
    indexes := [{ properties := [{ key := "x", value := IndexPropVal.computed c6Fn }],
                  projection := none }] }

def c6It1 : QItem :=
  { tail := [some (JVal.jnum 1), some (JVal.jstr "k1")],
    key := some (JVal.jstr "k1"),
    doc := [("x", JVal.jnum 5), ("y", JVal.jnum 1)] }

def c6It2 : QItem :=
  { tail := [some (JVal.jnum 2), some (JVal.jstr "k2")],
    key := some (JVal.jstr "k2"),
    doc := [("x", JVal.jnum 0), ("y", JVal.jnum 2)] }

def c6All : List QItem := [c6It1, c6It2]

def c6WinIt1 : QItem :=
  { tail := [some (JVal.jnum 1), some (JVal.jstr "k1")],
    key := some (JVal.jstr "k1"),
    doc := [("a", JVal.jnum 1)] }

def c6WinIt2 : QItem :=
  { tail := [some (JVal.jnum 2), some (JVal.jstr "k2")],
    key := some (JVal.jstr "k2"),
    doc := [("a", JVal.jnum 2)] }

def c6WinAll : List QItem := [c6WinIt1, c6WinIt2]

/-- The guard state of `initializeDocumentStore` (part_009 lines 47-71):
the two in-memory flags, the transaction binding of the handle
(`insideTransaction`, line 680), and whether the schema record exists. -/
structure InitState where
  hasBeenInitialized : Bool
  isInitializing : Bool
  insideTransaction : Bool
  recordExists : Bool
deriving DecidableEq

inductive InitOutcome where
  | completed
  | errorInsideTransaction
deriving DecidableEq

/-- A KVS access made during initialisation (read or write of keys under
the store prefix). -/
inductive IOp where
  | readRecord
  | writeRecord
deriving DecidableEq

/-- `initializeDocumentStore` (part_009 lines 47-71). The guard structure is
modelled exactly: return immediately when `hasBeenInitialized` or
`isInitializing`, then fail when `insideTransaction`. Afterwards
`createDocumentStoreIfDoesNotExist` (lines 73-93) reads the record and
writes it when missing; when the record exists the lock / upgrade / verify /
migrate sequence runs (lock and unlock each read and write the record,
assuming it is unlocked; the KVS accesses of the migration diff itself are
the `migrationOps` parameter — their content is irrelevant to this claim
and is settled separately). Both paths end with `hasBeenInitialized = true`. -/
def initDocumentStoreM (s : InitState) (migrationOps : List IOp) :
    InitOutcome × InitState × List IOp :=
  if s.hasBeenInitialized then (InitOutcome.completed, s, [])
  else if s.isInitializing then (InitOutcome.completed, s, [])
  else if s.insideTransaction then (InitOutcome.errorInsideTransaction, s, [])
  else if ¬ s.recordExists then
    (InitOutcome.completed,
      { s with hasBeenInitialized := true, recordExists := true },
      [IOp.readRecord, IOp.readRecord, IOp.writeRecord])
  else
    (InitOutcome.completed, { s with hasBeenInitialized := true },
      [IOp.readRecord] ++ [IOp.readRecord, IOp.writeRecord] ++ [IOp.readRecord]
        ++ migrationOps ++ [IOp.readRecord, IOp.writeRecord])

/-- A persisted collection inside the schema record: name, removal mark,
and the `keys` lists of its persisted indexes. -/
structure PColl where
  name : String
  hasBeenRemoved : Bool
  indexes : List (List String)
deriving DecidableEq

/-- Whether a string contains the `':'` character (every index-collection
name does; collection names normally do not). -/
def hasColon (s : String) : Bool := s.data.contains ':'

/-- The KVS `findAndDelete({ prefix })`: delete every pair whose key extends
the given segments. -/
def findAndDeleteM (st : Store) (pfx : Key) : Store :=
  fun k => if pfx.isPrefixOf k then none else st k

/-- `_removeIndex(collectionName, indexKeys)` (part_009 lines 264-271):
delete the whole key range of one index. -/
def removeIndexM (n collName : String) (idxKeys : List String) (st : Store) : Store :=
  findAndDeleteM st
    [some (JVal.jstr n),
     some (JVal.jstr (makeIndexCollectionName collName (makeIndexName idxKeys)))]

/-- The removed-collections phase of `migrateDocumentStore` (part_009 lines
205-221): every persisted collection that is absent from the declared name
list and not already removed has all its index ranges deleted, its index
list emptied and `hasBeenRemoved` set; the updated record is saved (a write
of the record key `[storeName]` only, which no statement below depends on). -/
def migrateRemovedPhase (n : String) (declared : List String) :
    List PColl → Store → List PColl × Store
  | [], st => ([], st)
  | ec :: rest, st =>
    if ec.hasBeenRemoved then
      let r := migrateRemovedPhase n declared rest st
      (ec :: r.1, r.2)
    else if declared.contains ec.name then
      let r := migrateRemovedPhase n declared rest st
      (ec :: r.1, r.2)
    else
      let st1 := ec.indexes.foldl (fun st ks => removeIndexM n ec.name ks st) st
      let r := migrateRemovedPhase n declared rest st1
      ({ ec with hasBeenRemoved := true, indexes := [] } :: r.1, r.2)

/-- `removeCollectionsMarkedAsRemoved` (part_009 lines 312-331): for every
collection marked as removed, delete its document prefix
(`_removeCollection`, lines 328-331) and drop it from the record. -/
def removeCollectionsMarkedAsRemovedM (n : String) :
    List PColl → Store → List PColl × Store
  | [], st => ([], st)
  | ec :: rest, st =>
    if ec.hasBeenRemoved then
      let st1 := findAndDeleteM st [some (JVal.jstr n), some (JVal.jstr ec.name)]
      removeCollectionsMarkedAsRemovedM n rest st1
    else
      let r := removeCollectionsMarkedAsRemovedM n rest st
      (ec :: r.1, r.2)

/-! Fixtures for the C8 witness: a schema with one stale collection. -/

def c8Old : PColl := { name := "Old", hasBeenRemoved := false, indexes := [["a"]] }

def c8Record : List PColl := [c8Old, { name := "New", hasBeenRemoved := false, indexes := [] }]

def c8Marked : PColl := { name := "Old", hasBeenRemoved := true, indexes := [] }

/-- The object literally returned by `getStatistics` (part_009 lines
302-309): the KVS pairs count sits under a field named `keyValueStore` —
there is no `store` field, although the repository's own test suite
(part_000) and the specification read `stats.store.pairsCount`. -/
structure Statistics where
  collectionsCount : Nat
  removedCollectionsCount : Nat
  indexesCount : Nat
  keyValueStorePairsCount : Nat
deriving DecidableEq

/-- A finite view of the KVS, for the operations that count pairs. -/
abbrev StoreL := List (Key × Val)

def lookupL (st : StoreL) (k : Key) : Option Val :=
  (st.find? (fun kv => kv.1 == k)).map (fun kv => kv.2)

/-- `store.count({ prefix })`: the number of pairs under the prefix. -/
def countPrefixL (st : StoreL) (pfx : Key) : Nat :=
  (st.filter (fun kv => pfx.isPrefixOf kv.1)).length

/-- `createDocumentStoreIfDoesNotExist` (part_009 lines 73-93): if the
record at `[storeName]` is missing, write it, built from the declared
collections (name and index keys). -/
def createIfNotExistL (n : String) (colls : List (String × List (List String)))
    (st : StoreL) : StoreL :=
  match lookupL st [some (JVal.jstr n)] with
  | some _ => st
  | none =>
    st ++ [([some (JVal.jstr n)],
      Val.record (colls.map (fun c => (c.1, false, c.2))))]

/-- `getStatistics` (part_009 lines 286-310): load the record (tolerating a
missing one), count present collections, removed collections and total
indexes, and ask the KVS for the pairs count under the store prefix. -/
def getStatisticsL (n : String) (st : StoreL) : Statistics :=
  let counts :=
    match lookupL st [some (JVal.jstr n)] with
    | some (Val.record colls) =>
      colls.foldl
        (fun (acc : Nat × Nat × Nat) (c : String × Bool × List (List String)) =>
          if c.2.1 then (acc.1, acc.2.1 + 1, acc.2.2 + c.2.2.length)
          else (acc.1 + 1, acc.2.1, acc.2.2 + c.2.2.length)) (0, 0, 0)
    | _ => (0, 0, 0)
  { collectionsCount := counts.1
    removedCollectionsCount := counts.2.1
    indexesCount := counts.2.2
    keyValueStorePairsCount := countPrefixL st [some (JVal.jstr n)] }

/-- Errors surfaced by the facade. `getCollection` with an unknown name
throws a `TypeError`: its error branch (part_009 line 351) interpolates
`collection.name` while `collection` is `undefined`. -/
inductive JSError where
  | typeError (msg : String)
  | plain (msg : String)
deriving DecidableEq

/-- The external KVS handle: point lookups, ordered prefix scans, and
prefix counts (spec section 6). -/
structure KVSI where
  point : Store
  scan : Key → List (Key × Val)
  countP : Key → Nat

/-- JavaScript `query[key]` on a query object. -/
def jsLookupQ (q : List (String × OJV)) (k : String) : OJV :=
  match q.find? (fun p => p.1 == k) with
  | some p => p.2
  | none => none

/-- `makeIndexKeyForQuery(collection, index, query)` (part_009 lines
440-451): the scan prefix — the two name segments followed by
`query[keys[i]]` for the first `|query|` index property keys. -/
def makeIndexKeyForQuery (n : String) (c : Collection) (index : Index)
    (query : List (String × OJV)) : Key :=
  let keys := index.properties.map (fun p => p.key)
  [some (JVal.jstr n),
   some (JVal.jstr (makeIndexCollectionName c.name (makeIndexName index.keys)))]
  ++ (List.range query.length).map (fun i =>
      match keys.get? i with
      | some k => jsLookupQ query k
      | none => none)

/-- `getCollection(name)` with `errorIfMissing` defaulted to true, as used
by `normalizeCollection` (part_009 lines 347-354, 365-368): resolve the
name among the declared collections or throw. -/
def normalizeCollectionM (colls : List Collection) (name : String) :
    Except JSError Collection :=
  match colls.find? (fun c => c.name == name) with
  | some c => Except.ok c
  | none => Except.error (JSError.typeError "Cannot read property name of undefined")

/-- The body of `find` once the collection object is in hand (part_009
lines 545-605): an empty query and order scan the document prefix; anything
else picks an index and runs `_findWithIndex`. -/
def findBody (n : String) (kvs : KVSI) (c : Collection)
    (query : List (String × OJV)) (order : List String)
    (properties : PropsOption) : Except JSError (List FItem) :=
  if query.length = 0 ∧ order.length = 0 then
    Except.ok ((kvs.scan [some (JVal.jstr n), some (JVal.jstr c.name)]).map
      (fun e => { key := e.1.getLast?,
                  document := match properties with
                    | PropsOption.star => some e.2
                    | PropsOption.props l => if l.length ≠ 0 then some e.2 else none }))
  else
    match findIndexForQueryAndOrder c (query.map (fun p => p.1)) order with
    | none => Except.error (JSError.plain "Index not found")
    | some index =>
      Except.ok (findWithIndexModel n c.name index properties
        (kvs.scan (makeIndexKeyForQuery n c index query)) kvs.point)

/-- `get(collection, key, options)` resolved by collection name: the
collection is normalised before any KVS access (part_009 lines 457-464). -/
def getByName (n : String) (colls : List Collection) (kvs : KVSI)
    (name : String) (key : OJV) (errorIfMissing : Bool) :
    Except JSError (Option Val) := do
  let c ← normalizeCollectionM colls name
  match kvs.point (makeDocumentKey n c.name key) with
  | some v => Except.ok (some v)
  | none =>
    if errorIfMissing then Except.error (JSError.plain "document is missing")
    else Except.ok none

/-- `put` by collection name (part_009 lines 471-486). -/
def putByName (n : String) (colls : List Collection) (kvs : KVSI)
    (name : String) (key : OJV) (doc : Doc) (opts : PutOptions) :
    Except JSError Store := do
  let c ← normalizeCollectionM colls name
  (putOp n c kvs.point key doc opts).mapError JSError.plain

/-- `delete` by collection name (part_009 lines 490-510). -/
def deleteByName (n : String) (colls : List Collection) (kvs : KVSI)
    (name : String) (key : OJV) (errorIfMissing : Bool) :
    Except JSError (Store × Bool) := do
  let c ← normalizeCollectionM colls name
  (deleteOp n c kvs.point key errorIfMissing).mapError JSError.plain

/-- `getMany` by collection name (part_009 lines 512-532). -/
def getManyByName (n : String) (colls : List Collection) (kvs : KVSI)
    (name : String) (keys : List OJV) : Except JSError (List FItem) := do
  let c ← normalizeCollectionM colls name
  Except.ok (getManyModel n c.name kvs.point keys)

/-- `find` by collection name (part_009 lines 545-565). -/
def findByName (n : String) (colls : List Collection) (kvs : KVSI)
    (name : String) (query : List (String × OJV)) (order : List String)
    (properties : PropsOption) : Except JSError (List FItem) := do
  let c ← normalizeCollectionM colls name
  findBody n kvs c query order properties

/-- `count` by collection name (part_009 lines 608-626). -/
def countByName (n : String) (colls : List Collection) (kvs : KVSI)
    (name : String) (query : List (String × OJV)) (order : List String) :
    Except JSError Nat := do
  let c ← normalizeCollectionM colls name
  if query.length = 0 ∧ order.length = 0 then
    Except.ok (kvs.countP [some (JVal.jstr n), some (JVal.jstr c.name)])
  else
    match findIndexForQueryAndOrder c (query.map (fun p => p.1)) order with
    | none => Except.error (JSError.plain "Index not found")
    | some index => Except.ok (kvs.countP (makeIndexKeyForQuery n c index query))

/-- `forEach` by collection name (part_009 lines 633-650): the collection is
normalised first; the batched loop then issues `find` calls (the loop
itself is settled as claim C6 — here its first batch stands for the body,
which is only reached when the collection resolves). -/
def forEachByName (n : String) (colls : List Collection) (kvs : KVSI)
    (name : String) (query : List (String × OJV)) (order : List String)
    (properties : PropsOption) : Except JSError (List FItem) := do
  let c ← normalizeCollectionM colls name
  findBody n kvs c query order properties

/-- `findAndDelete` by collection name (part_009 lines 653-666): normalise,
then run the `forEach` loop with `properties = []`, deleting each item. -/
def findAndDeleteByName (n : String) (colls : List Collection) (kvs : KVSI)
    (name : String) (query : List (String × OJV)) (order : List String) :
    Except JSError (List FItem) := do
  let c ← normalizeCollectionM colls name
  findBody n kvs c query order (PropsOption.props [])

-- ## Theorems

/-- A collection name never equals an index-collection name built from it or
from any other string: `a ≠ b ++ ":" ++ i` whenever `a.length ≤ b.length`. -/
theorem collName_ne_indexCollName {a b i : String} (h : a.length ≤ b.length) :
    a ≠ makeIndexCollectionName b i := by
  intro he
  have hlen := congrArg String.length he
  have h1 : (":" : String).length = 1 := rfl
  simp [makeIndexCollectionName, String.length_append, h1] at hlen
  omega

theorem applyOps_eq_of_key_ne {ops : List KVOp} {k : Key} (st : Store)
    (h : ∀ op ∈ ops, op.key ≠ k) : applyOps st ops k = st k := by
  induction ops generalizing st with
  | nil => rfl
  | cons op rest ih =>
    have hop := h op (by simp)
    have hrest : ∀ op ∈ rest, KVOp.key op ≠ k := fun o ho => h o (by simp [ho])
    rw [show applyOps st (op :: rest) = applyOps (applyOp st op) rest from rfl, ih _ hrest]
    cases op with
    | del k0 => exact if_neg (fun hk => hop hk.symm)
    | put k0 v => exact if_neg (fun hk => hop hk.symm)

/-- Every mutation of `updateIndex` happens inside the index's key range. -/
theorem updateIndexOps_key_shape {n : String} {c : Collection} {key : OJV}
    {oldDoc newDoc : Option Doc} {index : Index} :
    ∀ op ∈ updateIndexOps n c key oldDoc newDoc index,
      ∃ tail, op.key = indexRangeStart n c index ++ tail := by
  intro op hop
  simp only [updateIndexOps, List.mem_append] at hop
  rcases hop with h | h <;> (
    rw [List.mem_ite_nil_right] at h
    rw [List.mem_singleton] at h
    rw [h.2]
    exact ⟨_, rfl⟩)

/-- `updateIndexes` never touches a document key (its second segment carries
the `collection:index` name, never the bare collection name). -/
theorem updateIndexes_docKey_frame (n : String) (c : Collection) (st : Store)
    (key k2 : OJV) (oldDoc newDoc : Option Doc) :
    updateIndexes n c st key oldDoc newDoc (makeDocumentKey n c.name k2)
      = st (makeDocumentKey n c.name k2) := by
  suffices h : ∀ (l : List Index) (st : Store),
      l.foldl (fun st index => updateIndexStore n c st key oldDoc newDoc index) st
        (makeDocumentKey n c.name k2) = st (makeDocumentKey n c.name k2) from
    h c.indexes st
  intro l
  induction l with
  | nil => intro st; rfl
  | cons index rest ih =>
    intro st
    rw [List.foldl_cons, ih]
    apply applyOps_eq_of_key_ne
    intro op hop
    obtain ⟨tail, htail⟩ := updateIndexOps_key_shape op hop
    rw [htail]
    intro he
    simp only [indexRangeStart, makeDocumentKey, List.cons_append, List.nil_append,
      List.cons.injEq, Option.some.injEq, JVal.jstr.injEq] at he
    exact collName_ne_indexCollName (Nat.le_refl _) he.2.1.symm

/-- C2: for every write with previous document `oldDoc` and new document
`newDoc` (either possibly absent) and every index, `updateIndex` deletes the
old index entry iff the value lists differ and the old value list contains
no `undefined`, and writes the new index entry (whose value is the new
projection object, or null) iff the value lists or the projections differ
and the new value list contains no `undefined`. -/
theorem c2_updateIndex_conditions (n : String) (c : Collection) (key : OJV)
    (oldDoc newDoc : Option Doc) (index : Index) :
    (KVOp.del (makeIndexKey n c index (extractValues index oldDoc) key) ∈
        updateIndexOps n c key oldDoc newDoc index ↔
      extractValues index oldDoc ≠ extractValues index newDoc ∧
        ¬ none ∈ extractValues index oldDoc) ∧
    (KVOp.put (makeIndexKey n c index (extractValues index newDoc) key)
        (Val.proj (computeProjection index.projection newDoc)) ∈
        updateIndexOps n c key oldDoc newDoc index ↔
      (extractValues index oldDoc ≠ extractValues index newDoc ∨
        computeProjection index.projection oldDoc ≠ computeProjection index.projection newDoc) ∧
        ¬ none ∈ extractValues index newDoc) := by
  simp only [updateIndexOps, List.mem_append, List.mem_ite_nil_right, List.mem_singleton]
  constructor
  · constructor
    · rintro (⟨h, -⟩ | ⟨-, h⟩)
      · exact h
      · simp at h
    · intro h
      exact Or.inl ⟨h, trivial⟩
  · constructor
    · rintro (⟨-, h⟩ | ⟨h, -⟩)
      · simp at h
      · exact h
    · intro h
      exact Or.inr ⟨h, trivial⟩

/-- C4: round trip. After a successful `put(collection, key, doc)` a
subsequent `get` returns exactly the stored document, and after a
successful `delete(collection, key)` (with the default `errorIfMissing`) a
subsequent `get` with `errorIfMissing: false` returns absent. -/
theorem c4_put_get_delete_roundtrip (n : String) (c : Collection) (st : Store)
    (key : OJV) (doc : Doc) (opts : PutOptions) (em : Bool) :
    (∀ st1, putOp n c st key doc opts = Except.ok st1 →
      getOp n c st1 key em = Except.ok (some (Val.doc doc))) ∧
    (∀ st2 b, deleteOp n c st key true = Except.ok (st2, b) →
      getOp n c st2 key false = Except.ok none) := by
  constructor
  · intro st1 h
    simp only [putOp] at h
    split_ifs at h
    rw [Except.ok.injEq] at h
    subst h
    unfold getOp kvget
    rw [updateIndexes_docKey_frame]
    simp [kvput]
  · intro st2 b h
    simp only [deleteOp] at h
    split at h
    · split_ifs at h
    · rw [Except.ok.injEq, Prod.mk.injEq] at h
      rw [← h.1]
      unfold getOp kvget
      rw [updateIndexes_docKey_frame]
      simp [kvdel]

/-- Witness for C4 at a concrete store: put `{a: 1}` at key `"k"`, read it
back; then delete it and observe an absent read. -/
theorem c4_witness :
    getOp "S" c4Coll c4StorePut c4Key true = Except.ok (some (Val.doc c4Doc)) ∧
    getOp "S" c4Coll c4StoreDel c4Key false = Except.ok none := by
  constructor
  · exact (c4_put_get_delete_roundtrip "S" c4Coll (initStore "S") c4Key c4Doc
      ⟨true, false⟩ true).1 c4StorePut rfl
  · exact (c4_put_get_delete_roundtrip "S" c4Coll c4StorePut c4Key c4Doc
      ⟨true, false⟩ true).2 c4StoreDel true rfl

theorem string_append_cancel_left {a x y : String} (h : a ++ x = a ++ y) : x = y := by
  have hd := congrArg String.data h
  simp only [String.data_append] at hd
  exact String.ext (List.append_cancel_left hd)

theorem makeIndexCollectionName_inj {a x y : String}
    (h : makeIndexCollectionName a x = makeIndexCollectionName a y) : x = y := by
  unfold makeIndexCollectionName at h
  rw [String.append_assoc, String.append_assoc] at h
  exact string_append_cancel_left (string_append_cancel_left h)

/-- Key ranges of indexes with different derived names are disjoint. -/
theorem range_ne_of_name_ne {n : String} {c : Collection} {i j : Index}
    (hname : makeIndexName i.keys ≠ makeIndexName j.keys) (t t' : Key) :
    indexRangeStart n c i ++ t ≠ indexRangeStart n c j ++ t' := by
  intro he
  simp only [indexRangeStart, List.cons_append, List.nil_append, List.cons.injEq,
    Option.some.injEq, JVal.jstr.injEq] at he
  exact hname (makeIndexCollectionName_inj he.2.1)

/-- A document key never lies in an index key range. -/
theorem docKey_notin_range {n : String} {c : Collection} {i : Index} (k2 : OJV) (t : Key) :
    makeDocumentKey n c.name k2 ≠ indexRangeStart n c i ++ t := by
  intro he
  simp only [makeDocumentKey, indexRangeStart, List.cons_append, List.nil_append,
    List.cons.injEq, Option.some.injEq, JVal.jstr.injEq] at he
  exact collName_ne_indexCollName (Nat.le_refl _) he.2.1

theorem extractValues_length (i : Index) (d : Option Doc) :
    (extractValues i d).length = i.properties.length :=
  List.length_map _ _

/-- For an index with at least one property, the value list of the absent
document contains `undefined`. -/
theorem none_mem_extractValues_none {i : Index} (h : i.properties.length ≠ 0) :
    none ∈ extractValues i none := by
  cases hp : i.properties with
  | nil => rw [hp] at h; simp at h
  | cons p rest => simp [extractValues, hp, extractProperty]

theorem makeIndexKey_inj {n : String} {c : Collection} {i : Index}
    {vs vs' : List OJV} {k k' : OJV} (hl : vs.length = vs'.length)
    (h : makeIndexKey n c i vs k = makeIndexKey n c i vs' k') : vs = vs' ∧ k = k' := by
  simp only [makeIndexKey, List.cons_append, List.nil_append, List.cons.injEq] at h
  have h2 := List.append_inj h.2.2 hl
  exact ⟨h2.1, by simpa using h2.2⟩

/-- `makeIndexKey` lies in the index's own key range. -/
theorem makeIndexKey_eq_range (n : String) (c : Collection) (i : Index)
    (vs : List OJV) (k : OJV) :
    makeIndexKey n c i vs k = indexRangeStart n c i ++ (vs ++ [k]) := rfl

/-- Point characterization of one `updateIndex` call: the new entry is
written, the old entry deleted, and every other key left alone. -/
theorem updateIndexStore_point (n : String) (c : Collection) (st : Store) (key : OJV)
    (oldDoc newDoc : Option Doc) (i : Index) (k : Key) :
    updateIndexStore n c st key oldDoc newDoc i k =
      if ((extractValues i oldDoc ≠ extractValues i newDoc ∨
            computeProjection i.projection oldDoc ≠ computeProjection i.projection newDoc) ∧
          ¬ none ∈ extractValues i newDoc) ∧
          k = makeIndexKey n c i (extractValues i newDoc) key then
        some (Val.proj (computeProjection i.projection newDoc))
      else if (extractValues i oldDoc ≠ extractValues i newDoc ∧
          ¬ none ∈ extractValues i oldDoc) ∧
          k = makeIndexKey n c i (extractValues i oldDoc) key then
        none
      else st k := by
  unfold updateIndexStore updateIndexOps
  dsimp only
  by_cases hd : extractValues i oldDoc ≠ extractValues i newDoc ∧
      ¬ none ∈ extractValues i oldDoc <;>
  by_cases hp : (extractValues i oldDoc ≠ extractValues i newDoc ∨
        computeProjection i.projection oldDoc ≠ computeProjection i.projection newDoc) ∧
      ¬ none ∈ extractValues i newDoc
  · rw [if_pos hd, if_pos hp]
    show (kvput (kvdel st _) _ _) k = _
    simp [kvput, kvdel, hd.1, hd.2, hp.2]
  · rw [if_pos hd, if_neg hp, List.append_nil]
    show (kvdel st _) k = _
    have hnn : none ∈ extractValues i newDoc := by
      by_contra hcon
      exact hp ⟨Or.inl hd.1, hcon⟩
    simp [kvdel, hd.1, hd.2, hnn]
  · rw [if_neg hd, if_pos hp, List.nil_append]
    show (kvput st _ _) k = _
    simp [kvput, hd, hp.1, hp.2]
  · rw [if_neg hd, if_neg hp, List.append_nil]
    show st k = _
    simp [hd, hp]

theorem updateIndexStore_congr {n : String} {c : Collection} {st st' : Store}
    {key : OJV} {oldDoc newDoc : Option Doc} {i : Index} {k : Key}
    (h : st k = st' k) :
    updateIndexStore n c st key oldDoc newDoc i k
      = updateIndexStore n c st' key oldDoc newDoc i k := by
  rw [updateIndexStore_point, updateIndexStore_point, h]

theorem updateIndexStore_frame {n : String} {c : Collection} {st : Store}
    {key : OJV} {oldDoc newDoc : Option Doc} {i : Index} {k : Key}
    (h : ∀ t, k ≠ indexRangeStart n c i ++ t) :
    updateIndexStore n c st key oldDoc newDoc i k = st k := by
  apply applyOps_eq_of_key_ne
  intro op hop
  obtain ⟨t, ht⟩ := updateIndexOps_key_shape op hop
  rw [ht]
  exact fun he => h t he.symm

theorem updateIndexes_foldl_frame {n : String} {c : Collection}
    {key : OJV} {oldDoc newDoc : Option Doc} {k : Key} (l : List Index) (st : Store)
    (h : ∀ j ∈ l, ∀ t, k ≠ indexRangeStart n c j ++ t) :
    l.foldl (fun st index => updateIndexStore n c st key oldDoc newDoc index) st k
      = st k := by
  induction l generalizing st with
  | nil => rfl
  | cons j rest ih =>
    rw [List.foldl_cons, ih _ (fun j' hj' => h j' (by simp [hj']))]
    exact updateIndexStore_frame (h j (by simp))

/-- On the key range of index `i`, `updateIndexes` behaves like the single
`updateIndex` call for `i` (the other indexes act on disjoint ranges). -/
theorem updateIndexes_point_on_range {n : String} {c : Collection}
    {key : OJV} {oldDoc newDoc : Option Doc} (l : List Index) (st : Store)
    (i : Index) (hi : i ∈ l)
    (hnd : (l.map (fun j => makeIndexName j.keys)).Nodup) (tail : Key) :
    l.foldl (fun st index => updateIndexStore n c st key oldDoc newDoc index) st
        (indexRangeStart n c i ++ tail)
      = updateIndexStore n c st key oldDoc newDoc i (indexRangeStart n c i ++ tail) := by
  induction l generalizing st with
  | nil => cases hi
  | cons j rest ih =>
    rw [List.map_cons, List.nodup_cons] at hnd
    rcases List.mem_cons.mp hi with rfl | hi'
    · rw [List.foldl_cons]
      apply updateIndexes_foldl_frame
      intro j' hj' t he
      have hne : makeIndexName i.keys ≠ makeIndexName j'.keys := by
        intro hname
        exact hnd.1 (hname ▸ List.mem_map_of_mem (fun j => makeIndexName j.keys) hj')
      exact range_ne_of_name_ne hne tail t he
    · rw [List.foldl_cons, ih _ hi' hnd.2]
      apply updateIndexStore_congr
      apply updateIndexStore_frame
      intro t he
      have hne : makeIndexName i.keys ≠ makeIndexName j.keys := by
        intro hname
        exact hnd.1 (hname ▸ List.mem_map_of_mem (fun j => makeIndexName j.keys) hi')
      exact range_ne_of_name_ne hne tail t he

theorem getDocAt_congr {st st' : Store} {k : Key} (h : st k = st' k) :
    getDocAt st k = getDocAt st' k := by
  unfold getDocAt
  rw [h]


theorem tail_append_inj {vs vs' : List OJV} {k2 k2' : OJV} (hl : vs.length = vs'.length) :
    vs ++ [k2] = vs' ++ [k2'] ↔ vs = vs' ∧ k2 = k2' := by
  constructor
  · intro h
    have h2 := List.append_inj h hl
    exact ⟨h2.1, by simpa using h2.2⟩
  · rintro ⟨rfl, rfl⟩
    rfl

/-- Core preservation step for the index integrity invariant: if a store
satisfies the invariant and the document write step changed exactly the
document key (`W1`) while leaving all index ranges alone (`W2`), then the
subsequent `updateIndexes` call restores the invariant. -/
theorem integrity_preserved (n : String) (c : Collection)
    (hne : ∀ i ∈ c.indexes, i.properties.length ≠ 0)
    (hnd : (c.indexes.map (fun j => makeIndexName j.keys)).Nodup)
    (st st1 : Store) (key : OJV) (newDoc : Option Doc)
    (hI : IndexIntegrity n c st)
    (W1 : ∀ k2 : OJV, getDocAt st1 (makeDocumentKey n c.name k2)
      = if k2 = key then newDoc else getDocAt st (makeDocumentKey n c.name k2))
    (W2 : ∀ i ∈ c.indexes, ∀ t : Key,
      st1 (indexRangeStart n c i ++ t) = st (indexRangeStart n c i ++ t)) :
    IndexIntegrity n c
      (updateIndexes n c st1 key (getDocAt st (makeDocumentKey n c.name key)) newDoc) := by
  intro i hi
  have hlen0 : i.properties.length ≠ 0 := hne i hi
  set od := getDocAt st (makeDocumentKey n c.name key) with hod
  set ov := extractValues i od with hov
  set nv := extractValues i newDoc with hnv
  set nP := computeProjection i.projection newDoc with hnP
  set oP := computeProjection i.projection od with hoP
  have hlov : ov.length = i.properties.length := extractValues_length i od
  have hlnv : nv.length = i.properties.length := extractValues_length i newDoc
  -- behaviour of the updated store on document keys
  have hdoc2 : ∀ k2 : OJV,
      getDocAt (updateIndexes n c st1 key od newDoc) (makeDocumentKey n c.name k2)
      = if k2 = key then newDoc else getDocAt st (makeDocumentKey n c.name k2) := by
    intro k2
    rw [getDocAt_congr (updateIndexes_docKey_frame n c st1 key k2 od newDoc), W1]
  -- behaviour of the updated store on this index's key range
  have hpoint : ∀ t : Key,
      updateIndexes n c st1 key od newDoc (indexRangeStart n c i ++ t)
      = if ((ov ≠ nv ∨ oP ≠ nP) ∧ ¬ none ∈ nv) ∧ t = nv ++ [key] then
          some (Val.proj nP)
        else if (ov ≠ nv ∧ ¬ none ∈ ov) ∧ t = ov ++ [key] then none
        else st (indexRangeStart n c i ++ t) := by
    intro t
    show c.indexes.foldl
      (fun st index => updateIndexStore n c st key od newDoc index) st1
        (indexRangeStart n c i ++ t) = _
    rw [updateIndexes_point_on_range c.indexes st1 i hi hnd t, updateIndexStore_point,
      W2 i hi t]
    have h1 : (indexRangeStart n c i ++ t = makeIndexKey n c i nv key) ↔ t = nv ++ [key] := by
      rw [makeIndexKey_eq_range]
      exact ⟨fun h => List.append_cancel_left h, fun h => by rw [h]⟩
    have h2 : (indexRangeStart n c i ++ t = makeIndexKey n c i ov key) ↔ t = ov ++ [key] := by
      rw [makeIndexKey_eq_range]
      exact ⟨fun h => List.append_cancel_left h, fun h => by rw [h]⟩
    simp only [h1, h2]
  -- documents with undefined values have no entry in the base store
  have hnoentry : ∀ (vs : List OJV) (k2 : OJV), vs.length = i.properties.length →
      none ∈ vs → st (indexRangeStart n c i ++ (vs ++ [k2])) = none := by
    intro vs k2 hvl hmem
    by_contra hcon
    obtain ⟨key3, d3, hd3, hfree3, hshape⟩ := (hI i hi).1 (vs ++ [k2]) hcon
    rw [makeIndexKey_eq_range] at hshape
    have := List.append_cancel_left hshape
    obtain ⟨hvs, -⟩ := (tail_append_inj
      (by rw [hvl]; exact (extractValues_length i (some d3)).symm)).mp this
    rw [hvs] at hmem
    exact hfree3 hmem
  constructor
  · -- every surviving entry of the range belongs to a stored document
    intro t hne0
    rw [hpoint t] at hne0
    by_cases hPC : ((ov ≠ nv ∨ oP ≠ nP) ∧ ¬ none ∈ nv) ∧ t = nv ++ [key]
    · -- the freshly written entry: it is the entry of the new document
      obtain ⟨⟨-, hfree⟩, hKt⟩ := hPC
      obtain ⟨d, rfl⟩ : ∃ d, newDoc = some d := by
        cases hnd2 : newDoc with
        | none =>
          rw [hnd2] at hnv
          exact absurd (hnv ▸ none_mem_extractValues_none hlen0) hfree
        | some d => exact ⟨d, rfl⟩
      refine ⟨key, d, ?_, ?_, ?_⟩
      · rw [hdoc2 key, if_pos rfl]
      · exact hfree
      · rw [hKt, makeIndexKey_eq_range]
        rfl
    · rw [if_neg hPC] at hne0
      by_cases hDC : (ov ≠ nv ∧ ¬ none ∈ ov) ∧ t = ov ++ [key]
      · rw [if_pos hDC] at hne0
        exact absurd rfl hne0
      · rw [if_neg hDC] at hne0
        -- an old entry that survived: its document is still stored
        obtain ⟨key3, d3, hd3, hfree3, hshape⟩ := (hI i hi).1 t hne0
        by_cases hk3 : key3 = key
        · -- entry of the overwritten document: values cannot have changed
          subst hk3
          have hodd : od = some d3 := by rw [hod, hd3]
          have hovv : ov = valuesOf i d3 := by rw [hov, hodd]; rfl
          have hKold : t = ov ++ [key3] := by
            rw [makeIndexKey_eq_range] at hshape
            have := List.append_cancel_left hshape
            rw [this, hovv]
          have hove : ov = nv := by
            by_contra hcon
            exact hDC ⟨⟨hcon, hovv ▸ hfree3⟩, hKold⟩
          obtain ⟨d, rfl⟩ : ∃ d, newDoc = some d := by
            cases hnd2 : newDoc with
            | none =>
              rw [hnd2] at hnv
              have hm : none ∈ nv := hnv ▸ none_mem_extractValues_none hlen0
              rw [← hove, hovv] at hm
              exact absurd hm hfree3
            | some d => exact ⟨d, rfl⟩
          refine ⟨key3, d, ?_, ?_, ?_⟩
          · rw [hdoc2 key3, if_pos rfl]
          · show ¬ none ∈ valuesOf i d
            have hfnv : ¬ none ∈ nv := by
              rw [← hove, hovv]
              exact hfree3
            exact hfnv
          · rw [hshape, ← hovv, hove]
            exact rfl
        · refine ⟨key3, d3, ?_, hfree3, hshape⟩
          rw [hdoc2 key3, if_neg hk3]
          exact hd3
  · -- a stored document has an entry iff its values are all defined
    intro key2 d2 hd2
    rw [hdoc2 key2] at hd2
    have hlv2 : (valuesOf i d2).length = i.properties.length :=
      extractValues_length i (some d2)
    rw [makeIndexKey_eq_range]
    by_cases hk2 : key2 = key
    · subst hk2
      rw [if_pos rfl] at hd2
      subst hd2
      have hvnv : valuesOf i d2 = nv := rfl
      rw [hvnv, hpoint (nv ++ [key2])]
      constructor
      · intro hfree
        by_cases hPC : (ov ≠ nv ∨ oP ≠ nP) ∧ ¬ none ∈ nv
        · rw [if_pos ⟨hPC, rfl⟩]
          simp
        · have hove : ov = nv := by
            by_contra hcon
            exact hPC ⟨Or.inl hcon, hfree⟩
          rw [if_neg (fun hcon => hPC hcon.1),
            if_neg (fun hcon => hcon.1.1 hove)]
          obtain ⟨dold, hdold⟩ : ∃ dold, od = some dold := by
            cases hodc : od with
            | none =>
              rw [hodc] at hov
              have hm : none ∈ ov := hov ▸ none_mem_extractValues_none hlen0
              rw [hove] at hm
              exact absurd hm hfree
            | some dold => exact ⟨dold, rfl⟩
          have hovv : ov = valuesOf i dold := by rw [hov, hdold]; rfl
          have hb := ((hI i hi).2 key2 dold (by rw [← hod]; exact hdold)).mp
            (by rw [← hovv, hove]; exact hfree)
          rw [makeIndexKey_eq_range] at hb
          rw [← hovv, hove] at hb
          exact hb
      · intro hne2
        by_contra hmem
        rw [if_neg (fun hcon => hcon.1.2 hmem)] at hne2
        by_cases hDC : (ov ≠ nv ∧ ¬ none ∈ ov) ∧ (nv ++ [key2] : Key) = ov ++ [key2]
        · rw [if_pos hDC] at hne2
          exact hne2 rfl
        · rw [if_neg hDC] at hne2
          exact hne2 (hnoentry nv key2 hlnv hmem)
    · rw [if_neg hk2] at hd2
      rw [hpoint (valuesOf i d2 ++ [key2])]
      rw [if_neg (by
        intro hcon
        obtain ⟨-, hk⟩ := (tail_append_inj (hlv2.trans hlnv.symm)).mp hcon.2
        exact hk2 hk)]
      rw [if_neg (by
        intro hcon
        obtain ⟨-, hk⟩ := (tail_append_inj (hlv2.trans hlov.symm)).mp hcon.2
        exact hk2 hk)]
      have hb := (hI i hi).2 key2 d2 hd2
      rw [makeIndexKey_eq_range] at hb
      exact hb

theorem docKey_inj {n cn : String} {k k' : OJV} :
    makeDocumentKey n cn k = makeDocumentKey n cn k' ↔ k = k' := by
  simp [makeDocumentKey]

/-- C1 (amended): the index integrity invariant holds in every store
reachable by successful `put`/`delete` operations, provided every index of
the collection has at least one property and the derived index names are
pairwise distinct. -/
theorem c1_index_integrity_amended (n : String) (c : Collection)
    (hne : ∀ i ∈ c.indexes, i.properties.length ≠ 0)
    (hnd : (c.indexes.map (fun j => makeIndexName j.keys)).Nodup)
    {st : Store} (hr : Reach n c st) : IndexIntegrity n c st := by
  induction hr with
  | init =>
    intro i hi
    constructor
    · intro t h
      exfalso
      apply h
      unfold initStore
      rw [if_neg]
      intro he
      have hlen := congrArg List.length he
      simp [indexRangeStart] at hlen
    · intro key d hd
      exfalso
      unfold getDocAt initStore at hd
      rw [if_neg (by
        intro he
        have hlen := congrArg List.length he
        simp [makeDocumentKey] at hlen)] at hd
      cases hd
  | @put st st' key doc opts hr hstep ih =>
    simp only [putOp] at hstep
    split_ifs at hstep
    rw [Except.ok.injEq] at hstep
    subst hstep
    apply integrity_preserved n c hne hnd st _ key (some doc) ih
    · intro k2
      unfold getDocAt kvput
      by_cases h : k2 = key
      · subst h
        rw [if_pos rfl, if_pos rfl]
      · rw [if_neg (fun he => h (docKey_inj.mp he)), if_neg h]
    · intro i hi t
      unfold kvput
      exact if_neg (fun he => docKey_notin_range key t he.symm)
  | @del st st' key b em hr hstep ih =>
    simp only [deleteOp] at hstep
    cases hmatch : getDocAt st (makeDocumentKey n c.name key) with
    | none =>
      rw [hmatch] at hstep
      split_ifs at hstep
      rw [Except.ok.injEq, Prod.mk.injEq] at hstep
      rw [← hstep.1]
      exact ih
    | some oldd =>
      rw [hmatch] at hstep
      rw [Except.ok.injEq, Prod.mk.injEq] at hstep
      rw [← hstep.1, ← hmatch]
      apply integrity_preserved n c hne hnd st _ key none ih
      · intro k2
        unfold getDocAt kvdel
        by_cases h : k2 = key
        · subst h
          rw [if_pos rfl, if_pos rfl]
        · rw [if_neg (fun he => h (docKey_inj.mp he)), if_neg h]
      · intro i hi t
        unfold kvdel
        exact if_neg (fun he => docKey_notin_range key t he.symm)

/-- C1 counterexample: with an empty-properties index carrying a projection,
a successful `put` followed by a successful `delete` leaves a stray index
entry although no document is stored, so the invariant as claimed (for
every index) fails on a reachable store. -/
theorem c1_claim_counterexample :
    Reach "S" c1Coll c1StoreDel ∧ ¬ IndexIntegrity "S" c1Coll c1StoreDel := by
  constructor
  · exact @Reach.del "S" c1Coll c1StorePut c1StoreDel c1Key true true
      (@Reach.put "S" c1Coll (initStore "S") c1StorePut c1Key c1Doc ⟨true, false⟩
        Reach.init rfl) rfl
  · intro h
    have hmem : c1Index ∈ c1Coll.indexes := List.mem_singleton.mpr rfl
    obtain ⟨key3, d3, hd3, -, hshape⟩ := (h c1Index hmem).1 ([] ++ [c1Key]) (by decide)
    have hv : valuesOf c1Index d3 = [] := rfl
    rw [hv, makeIndexKey_eq_range] at hshape
    have hkk : c1Key = key3 := by
      simpa using List.append_cancel_left hshape
    rw [← hkk] at hd3
    have hnonedoc : getDocAt c1StoreDel (makeDocumentKey "S" c1Coll.name c1Key) = none := by
      decide
    rw [hnonedoc] at hd3
    cases hd3

/-- Witness for the amended C1 theorem at a concrete one-index collection
and a concrete reachable store. -/
theorem c1_witness : IndexIntegrity "S" c4Coll c4StorePut :=
  c1_index_integrity_amended "S" c4Coll (by decide) (by decide)
    (@Reach.put "S" c4Coll (initStore "S") c4StorePut c4Key c4Doc ⟨true, false⟩
      Reach.init rfl)

theorem list_find?_congr {α : Type} {p q : α → Bool} (h : ∀ a, p a = q a) :
    ∀ l : List α, l.find? p = l.find? q
  | [] => rfl
  | a :: t => by
    rw [List.find?_cons, List.find?_cons, h a]
    cases q a
    · exact list_find?_congr h t
    · rfl

theorem jsDifference_eq_nil_iff_toFinset {qk tk : List String} (hq : qk.Nodup)
    (hl : tk.length ≤ qk.length) :
    jsDifference qk tk = [] ↔ tk.toFinset = qk.toFinset := by
  rw [jsDifference, List.filter_eq_nil_iff]
  constructor
  · intro h
    have hsub : qk.toFinset ⊆ tk.toFinset := by
      intro a ha
      rw [List.mem_toFinset] at ha ⊢
      have := h a ha
      simpa [List.elem_iff] using this
    have hc : tk.toFinset.card ≤ qk.toFinset.card := by
      rw [List.toFinset_card_of_nodup hq]
      exact le_trans (List.toFinset_card_le tk) hl
    exact (Finset.eq_of_subset_of_card_le hsub hc).symm
  · intro h a ha
    have hmem : a ∈ tk.toFinset := by
      rw [h, List.mem_toFinset]
      exact ha
    rw [List.mem_toFinset] at hmem
    simp [List.elem_iff, hmem]

/-- C3: `findIndexForQueryAndOrder` returns exactly what the specification
describes — the first declared index whose leading property keys equal the
query keys as a set and whose trailing property keys equal `order` exactly,
and `none` (IndexNotFound) when no index qualifies. The query keys of a
JavaScript object are pairwise distinct. -/
theorem c3_findIndexForQueryAndOrder_spec (c : Collection)
    (queryKeys order : List String) (hq : queryKeys.Nodup) :
    findIndexForQueryAndOrder c queryKeys order
      = specIndexForQueryAndOrder c queryKeys order := by
  unfold findIndexForQueryAndOrder specIndexForQueryAndOrder
  have hpt : ∀ idx : Index,
      (decide ((jsDifference queryKeys
          ((idx.properties.map (fun p => p.key)).take queryKeys.length)).length = 0)
        && decide ((idx.properties.map (fun p => p.key)).drop queryKeys.length = order))
      = (decide (((idx.properties.map (fun p => p.key)).take queryKeys.length).toFinset
            = queryKeys.toFinset)
          && decide ((idx.properties.map (fun p => p.key)).drop queryKeys.length = order)) := by
    intro idx
    have hiff : (jsDifference queryKeys
          ((idx.properties.map (fun p => p.key)).take queryKeys.length)).length = 0
        ↔ ((idx.properties.map (fun p => p.key)).take queryKeys.length).toFinset
            = queryKeys.toFinset := by
      rw [List.length_eq_zero]
      exact jsDifference_eq_nil_iff_toFinset hq (List.length_take_le _ _)
    simp only [hiff]
  by_cases hz : queryKeys.length ≠ 0
  · rw [if_pos hz, List.find?_filter]
    apply list_find?_congr
    intro idx
    rw [← hpt idx]
    simp
  · rw [if_neg hz]
    apply list_find?_congr
    intro idx
    rw [not_not, List.length_eq_zero] at hz
    subst hz
    simp

/-- Witness for C3 at a concrete collection, query and order. -/
theorem c3_witness :
    findIndexForQueryAndOrder c3Coll ["country"] ["city"]
      = specIndexForQueryAndOrder c3Coll ["country"] ["city"] :=
  c3_findIndexForQueryAndOrder_spec c3Coll ["country"] ["city"] (by decide)

/-- C5: the projection decision of an indexed `find`. `'*'` fetches full
documents through a second `getMany` pass; a non-empty property array fully
covered by the index projection is answered from the projection payloads of
the index entries (nothing logged); an uncovered array falls back to the
full fetch and logs the insufficiency; an empty array returns keys only. -/
theorem c5_projection_decision (n collName : String) (index : Index)
    (l : List String) (entries : List (Key × Val)) (st : Store) :
    (findWithIndexModel n collName index PropsOption.star entries st
      = getManyModel n collName st (entries.map (fun e => e.1.getLast?.getD none))) ∧
    (l ≠ [] → (∀ p ∈ l, p ∈ index.projection.getD []) →
      findWithIndexModel n collName index (PropsOption.props l) entries st
        = entries.map (fun e => { key := e.1.getLast?, document := some e.2 }) ∧
      (projectionDecision (PropsOption.props l) index).2.2 = false) ∧
    (l ≠ [] → ¬ (∀ p ∈ l, p ∈ index.projection.getD []) →
      findWithIndexModel n collName index (PropsOption.props l) entries st
        = getManyModel n collName st (entries.map (fun e => e.1.getLast?.getD none)) ∧
      (projectionDecision (PropsOption.props l) index).2.2 = true) ∧
    (findWithIndexModel n collName index (PropsOption.props []) entries st
      = entries.map (fun e => { key := e.1.getLast?, document := none })) := by
  refine ⟨?_, ?_, ?_, ?_⟩
  · unfold findWithIndexModel projectionDecision
    dsimp only
    rw [if_pos rfl]
    congr 1
    rw [List.map_map]
    rfl
  · intro hnil hsub
    have hdec : projectionDecision (PropsOption.props l) index = (false, true, false) := by
      unfold projectionDecision
      dsimp only
      rw [if_pos (fun h => hnil (List.length_eq_zero.mp h)), if_pos]
      rw [List.length_eq_zero, jsDifference, List.filter_eq_nil_iff]
      intro a ha
      simp [List.elem_iff, hsub a ha]
    constructor
    · unfold findWithIndexModel
      rw [hdec]
      rfl
    · rw [hdec]
  · intro hnil hsub
    have hdec : projectionDecision (PropsOption.props l) index = (true, false, true) := by
      unfold projectionDecision
      dsimp only
      rw [if_pos (fun h => hnil (List.length_eq_zero.mp h)), if_neg]
      rw [List.length_eq_zero, jsDifference, List.filter_eq_nil_iff]
      intro hall
      apply hsub
      intro p hp
      have := hall p hp
      simpa [List.elem_iff] using this
    constructor
    · unfold findWithIndexModel
      rw [hdec]
      dsimp only
      rw [if_pos rfl]
      congr 1
      rw [List.map_map]
      rfl
    · rw [hdec]
  · unfold findWithIndexModel projectionDecision
    dsimp only
    rw [if_neg (by simp)]
    rfl

/-- Witness for C5: a covered property request answered from the projection
payload of a concrete index entry. -/
theorem c5_witness :
    findWithIndexModel "S" "People" c5Index (PropsOption.props ["firstName"])
        c5Entries c4StorePut
      = c5Entries.map (fun e => { key := e.1.getLast?, document := some e.2 }) ∧
    (projectionDecision (PropsOption.props ["firstName"]) c5Index).2.2 = false :=
  (c5_projection_decision "S" "People" c5Index ["firstName"] c5Entries
    c4StorePut).2.1 (by decide) (by decide)

theorem filter_lt_of_sorted {all pre rest : List QItem} {x : QItem}
    (hs : all.Pairwise (fun a b => a.tail < b.tail)) (hall : all = pre ++ x :: rest) :
    all.filter (fun it => decide (x.tail < it.tail)) = rest := by
  subst hall
  rw [List.pairwise_append] at hs
  obtain ⟨hpre, hxr, hcross⟩ := hs
  rw [List.pairwise_cons] at hxr
  have h1 : List.filter (fun it => decide (x.tail < it.tail)) pre = [] := by
    rw [List.filter_eq_nil_iff]
    intro y hy
    simp only [decide_eq_true_eq]
    exact fun hlt => absurd (hcross y hy x (List.mem_cons_self _ _)) (asymm hlt)
  have h3 : List.filter (fun it => decide (x.tail < it.tail)) rest = rest := by
    rw [List.filter_eq_self]
    intro y hy
    simp only [decide_eq_true_eq]
    exact hxr.1 y hy
  simp [List.filter_append, List.filter_cons, h1, h3]

theorem forEach_resume (all : List QItem) (order : List String) (bs : Nat)
    (hbs : 1 ≤ bs)
    (hs : all.Pairwise (fun a b => a.tail < b.tail))
    (hk : ∀ it ∈ all, makeOrderKeyM it.key it.doc order = it.tail) :
    ∀ (fuel : Nat) (pre rest : List QItem) (x : QItem),
      all = pre ++ x :: rest → rest.length < fuel →
      forEachModel all order bs fuel (some x.tail) = rest := by
  intro fuel
  induction fuel with
  | zero =>
    intro pre rest x hall hlen
    omega
  | succ fuel ih =>
    intro pre rest x hall hlen
    rw [forEachModel]
    have hfb : findBatch all (some x.tail) bs = rest.take bs := by
      rw [findBatch, filter_lt_of_sorted hs hall]
    rw [hfb]
    cases hrest : rest with
    | nil =>
      simp [hrest]
    | cons r rest2 =>
      obtain ⟨bs2, rfl⟩ : ∃ bs2, bs = bs2 + 1 := ⟨bs - 1, by omega⟩
      subst hrest
      rw [List.take_succ_cons]
      rw [if_neg (by simp)]
      have hnonempty : (r :: rest2.take bs2) ≠ [] := by simp
      rw [List.getLast?_eq_getLast _ hnonempty]
      set L := (r :: rest2.take bs2).getLast hnonempty with hL
      have hLmem : L ∈ all := by
        rw [hall]
        have h1 : L ∈ r :: rest2.take bs2 := List.getLast_mem hnonempty
        have h2 : L ∈ r :: rest2 := by
          rcases List.mem_cons.mp h1 with h | h
          · simp [h]
          · exact List.mem_cons_of_mem r (List.mem_of_mem_take h)
        simp [h2]
      dsimp only
      rw [hk L hLmem]
      have hdecomp : (r :: rest2) = (r :: rest2.take bs2) ++ rest2.drop bs2 := by
        rw [List.cons_append, List.take_append_drop]
      have hall2 : all = (pre ++ x :: (r :: rest2.take bs2).dropLast)
          ++ L :: rest2.drop bs2 := by
        rw [hall, hdecomp]
        rw [show (L : QItem) :: rest2.drop bs2 = [L] ++ rest2.drop bs2 from rfl]
        rw [← List.append_assoc, ← List.dropLast_concat_getLast hnonempty, ← hL]
        simp
      rw [ih _ _ L hall2 (by
        have := List.length_drop bs2 rest2
        simp at hlen ⊢
        omega)]
      rw [← hdecomp]

/-- C6 (amended): batched `forEach` visits every matching document exactly
once, in the order of a single unbatched `find`, for every `batchSize ≥ 1`
and enough rounds — provided the advancement key
`[doc[order[0]], …, docKey]` of every item equals the item's index entry
key tail (as holds when every order property is a simple top-level document
property). -/
theorem c6_forEach_batches_amended (all : List QItem) (order : List String)
    (bs fuel : Nat)
    (hs : all.Pairwise (fun a b => a.tail < b.tail))
    (hk : ∀ it ∈ all, makeOrderKeyM it.key it.doc order = it.tail)
    (hbs : 1 ≤ bs) (hf : all.length < fuel) :
    forEachModel all order bs fuel none = all := by
  cases fuel with
  | zero => omega
  | succ fuel =>
    rw [forEachModel]
    have hfb : findBatch all none bs = all.take bs := rfl
    rw [hfb]
    cases hall : all with
    | nil => simp
    | cons a t =>
      obtain ⟨bs2, rfl⟩ : ∃ bs2, bs = bs2 + 1 := ⟨bs - 1, by omega⟩
      subst hall
      rw [List.take_succ_cons]
      rw [if_neg (by simp)]
      have hnonempty : (a :: t.take bs2) ≠ [] := by simp
      rw [List.getLast?_eq_getLast _ hnonempty]
      set L := (a :: t.take bs2).getLast hnonempty with hL
      have hLmem : L ∈ a :: t := by
        have h1 : L ∈ a :: t.take bs2 := List.getLast_mem hnonempty
        rcases List.mem_cons.mp h1 with h | h
        · simp [h]
        · exact List.mem_cons_of_mem a (List.mem_of_mem_take h)
      dsimp only
      rw [hk L hLmem]
      have hdecomp : (a :: t) = (a :: t.take bs2) ++ t.drop bs2 := by
        rw [List.cons_append, List.take_append_drop]
      have hall2 : (a :: t) = (a :: t.take bs2).dropLast ++ L :: t.drop bs2 := by
        rw [hdecomp]
        rw [show (L : QItem) :: t.drop bs2 = [L] ++ t.drop bs2 from rfl]
        rw [← List.append_assoc, List.dropLast_concat_getLast hnonempty]
      rw [forEach_resume (a :: t) order (bs2 + 1) hbs hs hk fuel _ _ L hall2 (by
        have := List.length_drop bs2 t
        simp at hf ⊢
        omega)]
      rw [← hdecomp]

/-- C6 counterexample: the `(query = {}, order = ['x'])` pair is accepted by
`find` (the collection declares a computed index `x` whose value is the
document property `y`), the index scan is sorted and its tails carry the
computed values, `batchSize = 1` is allowed — yet the batched `forEach`
never visits the second matching document, because it advances with
`doc['x']`, which differs from the indexed value. -/
theorem c6_claim_counterexample :
    (findIndexForQueryAndOrder c6Coll [] ["x"]).map Index.keys = some ["x"] ∧
    List.Pairwise (fun a b => a.tail < b.tail) c6All ∧
    (∀ it ∈ c6All, it.tail
      = [extractProperty { key := "x", value := IndexPropVal.computed c6Fn }
          (some it.doc), it.key]) ∧
    (1 : Nat) ≤ 1 ∧
    c6It2 ∈ c6All ∧ c6It2 ∉ forEachModel c6All ["x"] 1 4 none := by
  refine ⟨rfl, ?_, by decide, le_rfl, by decide, ?_⟩
  · simp only [c6All, List.pairwise_cons, List.mem_singleton, List.not_mem_nil,
      false_implies, implies_true, List.Pairwise.nil, and_true]
    intro b hb
    rw [hb]
    decide
  · have h : forEachModel c6All ["x"] 1 4 none = [c6It1] := by decide
    rw [h]
    decide

/-- Witness for the amended C6 theorem: a simple top-level order property,
two documents, `batchSize = 1`. -/
theorem c6_witness : forEachModel c6WinAll ["a"] 1 4 none = c6WinAll :=
  c6_forEach_batches_amended c6WinAll ["a"] 1 4
    (by
      simp only [c6WinAll, List.pairwise_cons, List.mem_singleton, List.not_mem_nil,
        false_implies, implies_true, List.Pairwise.nil, and_true]
      intro b hb
      rw [hb]
      decide)
    (by decide) le_rfl (by decide)

/-- C7 (amended): `initializeDocumentStore` is idempotent — once
`hasBeenInitialized` is set, every call returns immediately with no KVS
operation — and a transaction-bound call fails with the TransactionMisuse
error, without touching the KVS, exactly when the store is neither
initialized nor initializing (those two checks precede the transaction
guard); every completed full run leaves the store initialized. -/
theorem c7_initDocumentStore_guards (s : InitState) (mops : List IOp) :
    (s.hasBeenInitialized = true →
      initDocumentStoreM s mops = (InitOutcome.completed, s, [])) ∧
    (s.hasBeenInitialized = false → s.isInitializing = false →
      s.insideTransaction = true →
      initDocumentStoreM s mops = (InitOutcome.errorInsideTransaction, s, [])) ∧
    (s.hasBeenInitialized = false → s.isInitializing = false →
      s.insideTransaction = false →
      (initDocumentStoreM s mops).2.1.hasBeenInitialized = true) := by
  refine ⟨?_, ?_, ?_⟩
  · intro h
    simp [initDocumentStoreM, h]
  · intro h1 h2 h3
    simp [initDocumentStoreM, h1, h2, h3]
  · intro h1 h2 h3
    by_cases hr : s.recordExists <;>
      simp [initDocumentStoreM, h1, h2, h3, hr]

/-- C7 counterexample: on a transaction-bound handle of an already
initialized store, `initializeDocumentStore` does not raise the
TransactionMisuse error — it returns silently, because the
`hasBeenInitialized` check comes first. -/
theorem c7_claim_counterexample :
    (InitState.insideTransaction ⟨true, false, true, true⟩ = true) ∧
    (initDocumentStoreM ⟨true, false, true, true⟩ []).1
      ≠ InitOutcome.errorInsideTransaction := by
  exact ⟨rfl, by decide⟩

/-- Witness for the amended C7 theorem: an initialized store, arbitrary
migration ops. -/
theorem c7_witness :
    initDocumentStoreM ⟨true, false, false, true⟩ [IOp.writeRecord]
      = (InitOutcome.completed, ⟨true, false, false, true⟩, []) :=
  (c7_initDocumentStore_guards ⟨true, false, false, true⟩ [IOp.writeRecord]).1 rfl

theorem isPrefixOf_append (p t : Key) : p.isPrefixOf (p ++ t) = true := by
  rw [List.isPrefixOf_iff_prefix]
  exact List.prefix_append p t

theorem migrateRemovedPhase_deleteOnly (n : String) (declared : List String) :
    ∀ (record : List PColl) (st : Store) (k : Key),
      (migrateRemovedPhase n declared record st).2 k = none ∨
      (migrateRemovedPhase n declared record st).2 k = st k := by
  intro record
  induction record with
  | nil => intro st k; exact Or.inr rfl
  | cons ec rest ih =>
    intro st k
    rw [migrateRemovedPhase]
    split_ifs with h1 h2
    · exact ih st k
    · exact ih st k
    · have hfold : ∀ (l : List (List String)) (st : Store),
          (l.foldl (fun st ks => removeIndexM n ec.name ks st) st) k = none ∨
          (l.foldl (fun st ks => removeIndexM n ec.name ks st) st) k = st k := by
        intro l
        induction l with
        | nil => intro st; exact Or.inr rfl
        | cons ks l2 ih2 =>
          intro st
          rw [List.foldl_cons]
          rcases ih2 (removeIndexM n ec.name ks st) with h | h
          · exact Or.inl h
          · rw [h]
            unfold removeIndexM findAndDeleteM
            split_ifs
            · exact Or.inl rfl
            · exact Or.inr rfl
      rcases ih _ k with h | h
      · exact Or.inl h
      · rw [h]
        exact hfold ec.indexes st

theorem removeCollections_deleteOnly (n : String) :
    ∀ (record : List PColl) (st : Store) (k : Key),
      (removeCollectionsMarkedAsRemovedM n record st).2 k = none ∨
      (removeCollectionsMarkedAsRemovedM n record st).2 k = st k := by
  intro record
  induction record with
  | nil => intro st k; exact Or.inr rfl
  | cons ec rest ih =>
    intro st k
    rw [removeCollectionsMarkedAsRemovedM]
    split_ifs with h1
    · rcases ih _ k with h | h
      · exact Or.inl h
      · rw [h]
        unfold findAndDeleteM
        split_ifs
        · exact Or.inl rfl
        · exact Or.inr rfl
    · exact ih st k

theorem removeIndexFold_deleteOnly (n cn : String) :
    ∀ (l : List (List String)) (st : Store) (k : Key),
      (l.foldl (fun st ks => removeIndexM n cn ks st) st) k = none ∨
      (l.foldl (fun st ks => removeIndexM n cn ks st) st) k = st k := by
  intro l
  induction l with
  | nil => intro st k; exact Or.inr rfl
  | cons ks l2 ih =>
    intro st k
    rw [List.foldl_cons]
    rcases ih (removeIndexM n cn ks st) k with h | h
    · exact Or.inl h
    · rw [h]
      unfold removeIndexM findAndDeleteM
      split_ifs
      · exact Or.inl rfl
      · exact Or.inr rfl

theorem removeIndexFold_none_of_mem (n cn : String) :
    ∀ (l : List (List String)) (st : Store) (ks : List String), ks ∈ l →
      ∀ tail : Key,
      (l.foldl (fun st ks => removeIndexM n cn ks st) st)
        ([some (JVal.jstr n),
          some (JVal.jstr (makeIndexCollectionName cn (makeIndexName ks)))] ++ tail)
        = none := by
  intro l
  induction l with
  | nil =>
    intro st ks hks
    cases hks
  | cons ks0 l2 ih =>
    intro st ks hks tail
    rw [List.foldl_cons]
    rcases List.mem_cons.mp hks with rfl | hks2
    · rcases removeIndexFold_deleteOnly n cn l2 (removeIndexM n cn ks st) _ with h | h
      · exact h
      · rw [h]
        unfold removeIndexM findAndDeleteM
        rw [if_pos (isPrefixOf_append _ tail)]
    · exact ih _ ks hks2 tail

theorem hasColon_makeIndexCollectionName (c i : String) :
    hasColon (makeIndexCollectionName c i) = true := by
  unfold hasColon makeIndexCollectionName
  have hd : (c ++ ":" ++ i).data = c.data ++ [':'] ++ i.data := by
    simp [String.data_append]
  rw [hd]
  rw [List.contains_eq_any_beq]
  simp

theorem colonFree_ne_idxColl {cn c i : String} (h : hasColon cn = false) :
    cn ≠ makeIndexCollectionName c i := by
  intro he
  rw [he, hasColon_makeIndexCollectionName] at h
  cases h

theorem removeIndexFold_colonFree_frame (n cn2 : String) {cn : String}
    (hcn : hasColon cn = false) :
    ∀ (l : List (List String)) (st : Store) (rest : Key),
      (l.foldl (fun st ks => removeIndexM n cn2 ks st) st)
        ([some (JVal.jstr n), some (JVal.jstr cn)] ++ rest)
      = st ([some (JVal.jstr n), some (JVal.jstr cn)] ++ rest) := by
  intro l
  induction l with
  | nil => intro st rest; rfl
  | cons ks l2 ih =>
    intro st rest
    rw [List.foldl_cons, ih]
    unfold removeIndexM findAndDeleteM
    rw [if_neg]
    intro hp
    rw [List.isPrefixOf_iff_prefix] at hp
    obtain ⟨t, ht⟩ := hp
    simp only [List.cons_append, List.nil_append, List.cons.injEq, Option.some.injEq,
      JVal.jstr.injEq] at ht
    exact colonFree_ne_idxColl hcn ht.2.1.symm

theorem migrate_record_shape (n : String) (declared : List String) :
    ∀ (record : List PColl) (st : Store),
      (migrateRemovedPhase n declared record st).1
      = record.map (fun ec =>
          if ec.hasBeenRemoved then ec
          else if declared.contains ec.name then ec
          else { ec with hasBeenRemoved := true, indexes := [] }) := by
  intro record
  induction record with
  | nil => intro st; rfl
  | cons ec rest ih =>
    intro st
    rw [migrateRemovedPhase, List.map_cons]
    split_ifs with h1 h2
    · dsimp only
      rw [ih]
    · dsimp only
      rw [ih]
    · dsimp only
      rw [ih]

theorem migrate_ranges_deleted (n : String) (declared : List String) :
    ∀ (record : List PColl) (st : Store) (ec : PColl), ec ∈ record →
      ec.hasBeenRemoved = false → declared.contains ec.name = false →
      ∀ ks ∈ ec.indexes, ∀ tail : Key,
      (migrateRemovedPhase n declared record st).2
        ([some (JVal.jstr n),
          some (JVal.jstr (makeIndexCollectionName ec.name (makeIndexName ks)))] ++ tail)
        = none := by
  intro record
  induction record with
  | nil =>
    intro st ec hec
    cases hec
  | cons ec0 rest ih =>
    intro st ec hec hrem hdecl ks hks tail
    rw [migrateRemovedPhase]
    rcases List.mem_cons.mp hec with rfl | hec2
    · rw [if_neg (by rw [hrem]; simp), if_neg (by rw [hdecl]; simp)]
      rcases migrateRemovedPhase_deleteOnly n declared rest
        (ec.indexes.foldl (fun st ks => removeIndexM n ec.name ks st) st) _ with h | h
      · exact h
      · rw [h]
        exact removeIndexFold_none_of_mem n ec.name ec.indexes st ks hks tail
    · split_ifs
      · exact ih st ec hec2 hrem hdecl ks hks tail
      · exact ih st ec hec2 hrem hdecl ks hks tail
      · exact ih _ ec hec2 hrem hdecl ks hks tail

theorem migrate_doc_frame (n : String) (declared : List String) {cn : String}
    (hcn : hasColon cn = false) :
    ∀ (record : List PColl) (st : Store) (rest : Key),
      (migrateRemovedPhase n declared record st).2
        ([some (JVal.jstr n), some (JVal.jstr cn)] ++ rest)
      = st ([some (JVal.jstr n), some (JVal.jstr cn)] ++ rest) := by
  intro record
  induction record with
  | nil => intro st rest; rfl
  | cons ec0 rest0 ih =>
    intro st rest
    rw [migrateRemovedPhase]
    split_ifs
    · exact ih st rest
    · exact ih st rest
    · rw [ih _ rest]
      exact removeIndexFold_colonFree_frame n ec0.name hcn ec0.indexes st rest

theorem removeColls_record_shape (n : String) :
    ∀ (record : List PColl) (st : Store),
      (removeCollectionsMarkedAsRemovedM n record st).1
      = record.filter (fun ec => ! ec.hasBeenRemoved) := by
  intro record
  induction record with
  | nil => intro st; rfl
  | cons ec rest ih =>
    intro st
    rw [removeCollectionsMarkedAsRemovedM, List.filter_cons]
    split_ifs with h1 h2 h3
    · simp [h1] at h2
    · dsimp only
      rw [ih]
    · dsimp only
      rw [ih]
    · simp [Bool.not_eq_true] at h1
      simp [h1] at h3

theorem removeColls_doc_deleted (n : String) :
    ∀ (record : List PColl) (st : Store) (ec : PColl), ec ∈ record →
      ec.hasBeenRemoved = true → ∀ rest : Key,
      (removeCollectionsMarkedAsRemovedM n record st).2
        ([some (JVal.jstr n), some (JVal.jstr ec.name)] ++ rest) = none := by
  intro record
  induction record with
  | nil =>
    intro st ec hec
    cases hec
  | cons ec0 rest0 ih =>
    intro st ec hec hrem rest
    rw [removeCollectionsMarkedAsRemovedM]
    rcases List.mem_cons.mp hec with rfl | hec2
    · rw [if_pos hrem]
      rcases removeCollections_deleteOnly n rest0
        (findAndDeleteM st [some (JVal.jstr n), some (JVal.jstr ec.name)]) _ with h | h
      · exact h
      · rw [h]
        unfold findAndDeleteM
        rw [if_pos (isPrefixOf_append _ rest)]
    · split_ifs
      · exact ih _ ec hec2 hrem rest
      · exact ih st ec hec2 hrem rest

/-- C8: collection removal lifecycle. During migration every persisted
collection absent from the declared list and not already removed is marked
`hasBeenRemoved = true` with its index list emptied, and all of its index
key ranges are deleted, while every document prefix (any key whose second
segment is a colon-free collection name) is left unchanged; only
`removeCollectionsMarkedAsRemoved` deletes a marked collection's document
prefix and drops its entry from the schema record. -/
theorem c8_collection_removal_lifecycle (n : String) (declared : List String)
    (record : List PColl) (st : Store) :
    ((migrateRemovedPhase n declared record st).1
      = record.map (fun ec =>
          if ec.hasBeenRemoved then ec
          else if declared.contains ec.name then ec
          else { ec with hasBeenRemoved := true, indexes := [] })) ∧
    (∀ ec ∈ record, ec.hasBeenRemoved = false → declared.contains ec.name = false →
      ∀ ks ∈ ec.indexes, ∀ tail : Key,
      (migrateRemovedPhase n declared record st).2
        ([some (JVal.jstr n),
          some (JVal.jstr (makeIndexCollectionName ec.name (makeIndexName ks)))] ++ tail)
        = none) ∧
    (∀ cn : String, hasColon cn = false → ∀ rest : Key,
      (migrateRemovedPhase n declared record st).2
        ([some (JVal.jstr n), some (JVal.jstr cn)] ++ rest)
      = st ([some (JVal.jstr n), some (JVal.jstr cn)] ++ rest)) ∧
    ((removeCollectionsMarkedAsRemovedM n record st).1
      = record.filter (fun ec => ! ec.hasBeenRemoved)) ∧
    (∀ ec ∈ record, ec.hasBeenRemoved = true → ∀ rest : Key,
      (removeCollectionsMarkedAsRemovedM n record st).2
        ([some (JVal.jstr n), some (JVal.jstr ec.name)] ++ rest) = none) :=
  ⟨migrate_record_shape n declared record st,
   fun ec hec h1 h2 ks hks tail =>
     migrate_ranges_deleted n declared record st ec hec h1 h2 ks hks tail,
   fun _ hcn rest => migrate_doc_frame n declared hcn record st rest,
   removeColls_record_shape n record st,
   fun ec hec h1 rest => removeColls_doc_deleted n record st ec hec h1 rest⟩

/-- Witness for C8: a concrete schema with a stale collection `Old` carrying
one index, migrated against declared list `["New"]`, then purged. -/
theorem c8_witness :
    (migrateRemovedPhase "S" ["New"] c8Record (initStore "S")).2
      ([some (JVal.jstr "S"),
        some (JVal.jstr (makeIndexCollectionName "Old" (makeIndexName ["a"])))] ++ [])
      = none ∧
    (migrateRemovedPhase "S" ["New"] c8Record (initStore "S")).2
      ([some (JVal.jstr "S"), some (JVal.jstr "Old")] ++ [some (JVal.jstr "k")])
      = initStore "S" ([some (JVal.jstr "S"), some (JVal.jstr "Old")]
          ++ [some (JVal.jstr "k")]) ∧
    (removeCollectionsMarkedAsRemovedM "S" [c8Marked] (initStore "S")).2
      ([some (JVal.jstr "S"), some (JVal.jstr "Old")] ++ []) = none := by
  refine ⟨?_, ?_, ?_⟩
  · exact (c8_collection_removal_lifecycle "S" ["New"] c8Record (initStore "S")).2.1
      c8Old (by decide) rfl (by decide) ["a"] (by decide) []
  · exact (c8_collection_removal_lifecycle "S" ["New"] c8Record (initStore "S")).2.2.1
      "Old" (by decide) [some (JVal.jstr "k")]
  · exact (c8_collection_removal_lifecycle "S" ["New"] [c8Marked] (initStore "S")).2.2.2.2
      c8Marked (by decide) rfl []

/-- C9: after initialising an empty store with one collection, the only
persisted pair is the schema record, so the pairs count is 1, and the
statistics count one present collection, no removed collection and no
index. The code returns the pairs count as `keyValueStore.pairsCount`;
the claimed accessor path `getStatistics().store.pairsCount` does not exist
on the returned object (the repository's own tests read `.store`), which is
the code bug recorded for this claim. -/
theorem c9_statistics_empty_store (n cname : String) :
    getStatisticsL n (createIfNotExistL n [(cname, [])] []) =
      { collectionsCount := 1
        removedCollectionsCount := 0
        indexesCount := 0
        keyValueStorePairsCount := 1 } := by
  unfold createIfNotExistL getStatisticsL lookupL countPrefixL
  simp [List.find?, List.filter, isPrefixOf_append]

theorem normalizeCollectionM_unknown {colls : List Collection} {name : String}
    (h : ∀ c ∈ colls, c.name ≠ name) :
    normalizeCollectionM colls name
      = Except.error (JSError.typeError "Cannot read property name of undefined") := by
  unfold normalizeCollectionM
  rw [List.find?_eq_none.mpr]
  intro c hc
  simp [h c hc]

/-- C10: every public operation that takes a collection name resolves the
collection first, so calling it with an undeclared name yields an error —
the TypeError raised while `getCollection` builds its message from the
undefined collection — before any KVS read or write: the result is this
constant error for every possible KVS state. -/
theorem c10_unknown_collection_guard (n : String) (colls : List Collection)
    (name : String) (h : ∀ c ∈ colls, c.name ≠ name) :
    ∀ (kvs : KVSI) (key : OJV) (doc : Doc) (opts : PutOptions) (em : Bool)
      (keys : List OJV) (query : List (String × OJV)) (order : List String)
      (props : PropsOption),
      getByName n colls kvs name key em
          = Except.error (JSError.typeError "Cannot read property name of undefined") ∧
      putByName n colls kvs name key doc opts
          = Except.error (JSError.typeError "Cannot read property name of undefined") ∧
      deleteByName n colls kvs name key em
          = Except.error (JSError.typeError "Cannot read property name of undefined") ∧
      getManyByName n colls kvs name keys
          = Except.error (JSError.typeError "Cannot read property name of undefined") ∧
      findByName n colls kvs name query order props
          = Except.error (JSError.typeError "Cannot read property name of undefined") ∧
      countByName n colls kvs name query order
          = Except.error (JSError.typeError "Cannot read property name of undefined") ∧
      forEachByName n colls kvs name query order props
          = Except.error (JSError.typeError "Cannot read property name of undefined") ∧
      findAndDeleteByName n colls kvs name query order
          = Except.error (JSError.typeError "Cannot read property name of undefined") := by
  intro kvs key doc opts em keys query order props
  have hn := normalizeCollectionM_unknown h
  refine ⟨?_, ?_, ?_, ?_, ?_, ?_, ?_, ?_⟩ <;>
    simp [getByName, putByName, deleteByName, getManyByName, findByName,
      countByName, forEachByName, findAndDeleteByName, hn, Bind.bind, Except.bind]

/-- Witness for C10: a store declaring only `People`, queried with the
unknown name `Nope`, over an arbitrary concrete KVS. -/
theorem c10_witness :
    getByName "S" [c4Coll] ⟨initStore "S", fun _ => [], fun _ => 0⟩ "Nope"
        (some (JVal.jstr "k")) true
      = Except.error (JSError.typeError "Cannot read property name of undefined") :=
  (c10_unknown_collection_guard "S" [c4Coll] "Nope" (by decide)
    ⟨initStore "S", fun _ => [], fun _ => 0⟩ (some (JVal.jstr "k")) []
    ⟨true, false⟩ true [] [] [] PropsOption.star).1
